import Mathlib

set_option linter.unusedVariables false
set_option linter.unusedSectionVars false

/-!
Verification development for the phaseIII similarity-graph layer
(src/project/phaseIII/graph.py and src/project/phaseIII/loader.py).

The Python classes are shallowly embedded: the igraph instance becomes an
explicit vertex list plus edge list (list position = igraph vertex/edge
index), the Graph wrapper carries the igraph model together with the
clusters dictionary (an insertion-ordered association list, like a Python
dict), mutating methods become functions that return the new state, and a
raised Python exception becomes an `Except` error that carries the state
the object had at raise time.
-/

deriving instance DecidableEq for Except

namespace CSE515

/-- Reduction of a successful Except bind, used to evaluate the monadic
resolution code. -/
@[simp] theorem except_bind_ok {ε α β : Type} (a : α) (f : α → Except ε β) :
    (Except.ok a >>= f : Except ε β) = f a := rfl

/-- Reduction of a failing Except bind. -/
@[simp] theorem except_bind_error {ε α β : Type} (e : ε) (f : α → Except ε β) :
    ((Except.error e : Except ε α) >>= f : Except ε β) = Except.error e := rfl

/-- Runtime errors raised by the graph layer: Python ValueError / TypeError /
IndexError / FileNotFoundError, an unpickling failure, and the igraph error
raised when an edge handle refers to an edge index that no longer exists. -/
inductive Err where
  | valueError
  | typeError
  | indexError
  | fileNotFoundError
  | unpickleError
  | invalidEdgeHandle
  | fuelExhausted
  deriving DecidableEq, Repr

/-- Model of an igraph vertex: its name attribute (the external identifier)
and its cluster attribute (set by Graph.add_to_cluster; None in Python is
`none` here). -/
structure IVertex (V : Type) where
  name : V
  cluster : Option String
  deriving DecidableEq, Repr

/-- Model of an igraph edge: source and target vertex indices plus the
weight attribute (Graph.SIM). The position of an edge in `IGraph.es` is its
igraph edge index. -/
structure IEdge where
  src : Nat
  tgt : Nat
  weight : Rat
  deriving DecidableEq, Repr

/-- Model of a directed igraph carrying the attributes graph.py uses. -/
structure IGraph (V : Type) where
  vs : List (IVertex V)
  es : List IEdge
  deriving DecidableEq, Repr

/-- Model of the state of the Graph wrapper class: the igraph instance plus
the clusters dictionary (cluster label to member list, insertion-ordered
with unique keys, as a Python dict). -/
structure Graph (V : Type) where
  graph : IGraph V
  clusters : List (String × List V)
  deriving DecidableEq, Repr

/-- Model of the Edge interface class of graph.py (fields start, end,
weight); the source field `end` is spelled `stop` because `end` is reserved
in Lean. -/
structure Edge (V : Type) where
  start : V
  stop : V
  weight : Rat
  deriving DecidableEq, Repr

variable {V : Type} [DecidableEq V]

/-- Index of the first vertex in the list whose name attribute matches. -/
def findNameIdx (name : V) : List (IVertex V) → Option Nat
  | [] => none
  | v :: r => if v.name = name then some 0 else (findNameIdx name r).map (· + 1)

/-- Model of Graph.__get_node_by_name__: `graph.vs.select(name=name)` must
match exactly one vertex, otherwise a ValueError is raised; on success the
(unique) matching vertex is returned, modelled by its index. -/
def get_node_by_name (g : IGraph V) (name : V) : Except Err Nat :=
  if (g.vs.filter (fun v => v.name = name)).length = 1 then
    match findNameIdx name g.vs with
    | some i => .ok i
    | none => .error .valueError
  else
    .error .valueError

/-- Model of Graph.add_vertices: each name is appended as a fresh vertex
with `cluster=None` (igraph add_vertex appends at the end). -/
def add_vertices (g : IGraph V) (names : List V) : IGraph V :=
  { g with vs := g.vs ++ names.map (fun n => ⟨n, none⟩) }

/-- Left-to-right resolution of the (start, end) name pairs, exactly as the
list comprehension at the top of Graph.__add_edges__ does; the first bad
name raises, before anything has been modified. -/
def resolveEdges (g : IGraph V) : List (V × V) → Except Err (List (Nat × Nat))
  | [] => .ok []
  | (a, b) :: rest => do
    let i ← get_node_by_name g a
    let j ← get_node_by_name g b
    let r ← resolveEdges g rest
    .ok ((i, j) :: r)

/-- Model of Graph.__add_edges__: all endpoint names are resolved first (the
list comprehension), and only then is the weight attribute list extended and
the edges appended via igraph add_edges. A resolution error therefore leaves
the graph exactly as it was; the error value carries the state at raise
time. -/
def add_edges_core (g : IGraph V) (edges : List (V × V)) (weights : List Rat) :
    Except (Err × IGraph V) (IGraph V) :=
  match resolveEdges g edges with
  | .error e => .error (e, g)
  | .ok r =>
      .ok { g with es := g.es ++ (r.zip weights).map (fun p => ⟨p.1.1, p.1.2, p.2⟩) }

/-- Model of Graph.add_edges: the Edge objects are split into name pairs and
a weight list and handed to __add_edges__; the clusters dictionary is not
touched. There is no duplicate-edge check anywhere on this path, and igraph
happily stores parallel edges. -/
def Graph.add_edges (g : Graph V) (edges : List (Edge V)) :
    Except (Err × Graph V) (Graph V) :=
  match add_edges_core g.graph (edges.map (fun e => (e.start, e.stop)))
      (edges.map (fun e => e.weight)) with
  | .error p => .error (p.1, ⟨p.2, g.clusters⟩)
  | .ok g2 => .ok ⟨g2, g.clusters⟩

/-- Number of stored edges from vertex index s to vertex index t. -/
def edgeCount (g : IGraph V) (s t : Nat) : Nat :=
  (g.es.filter (fun e => decide (e.src = s) && decide (e.tgt = t))).length

/-- Boolean test that a name resolves to a unique vertex. -/
def resolvesB (g : IGraph V) (x : V) : Bool :=
  match get_node_by_name g x with
  | .ok _ => true
  | .error _ => false

theorem resolveEdges_error_of_bad (g : IGraph V) :
    ∀ l : List (V × V), (∃ p ∈ l, resolvesB g p.1 = false ∨ resolvesB g p.2 = false) →
      ∃ e, resolveEdges g l = .error e := by
  intro l
  induction l with
  | nil => rintro ⟨p, hp, _⟩; cases hp
  | cons hd tl ih =>
    rintro ⟨p, hp, hbad⟩
    cases hp with
    | head =>
      rcases hbad with hb | hb
      · unfold resolvesB at hb
        cases hres : get_node_by_name g hd.1 with
        | error e =>
          refine ⟨e, ?_⟩
          simp [resolveEdges, hres]
        | ok i => rw [hres] at hb; simp at hb
      · unfold resolvesB at hb
        cases hres2 : get_node_by_name g hd.2 with
        | error e =>
          cases hres : get_node_by_name g hd.1 with
          | error e1 => exact ⟨e1, by simp [resolveEdges, hres]⟩
          | ok i => exact ⟨e, by simp [resolveEdges, hres, hres2]⟩
        | ok j => rw [hres2] at hb; simp at hb
    | tail _ hmem =>
      rcases ih ⟨p, hmem, hbad⟩ with ⟨e, he⟩
      cases hres : get_node_by_name g hd.1 with
      | error e1 => exact ⟨e1, by simp [resolveEdges, hres]⟩
      | ok i =>
        cases hres2 : get_node_by_name g hd.2 with
        | error e2 => exact ⟨e2, by simp [resolveEdges, hres, hres2]⟩
        | ok j => exact ⟨e, by simp [resolveEdges, hres, hres2, he]⟩

/-- C9: when Graph.add_edges is called with an edge whose source or target
name does not resolve to an existing (unique) vertex, the call fails with an
error raised by __get_node_by_name__, and the state it leaves behind —
vertex list, edge list with weights, and clusters dictionary — is exactly
the state before the call: the name-resolution list comprehension in
__add_edges__ runs before any mutation, so a rejected call commits
nothing and the store stays usable. -/
theorem add_edges_unknown_vertex_preserves_state (g : Graph V) (edges : List (Edge V))
    (h : ∃ e ∈ edges, resolvesB g.graph e.start = false ∨ resolvesB g.graph e.stop = false) :
    ∃ err, Graph.add_edges g edges = .error (err, g) := by
  have hbad : ∃ p ∈ edges.map (fun e => (e.start, e.stop)),
      resolvesB g.graph p.1 = false ∨ resolvesB g.graph p.2 = false := by
    rcases h with ⟨e, he, hb⟩
    exact ⟨(e.start, e.stop), List.mem_map_of_mem _ he, hb⟩
  rcases resolveEdges_error_of_bad g.graph _ hbad with ⟨err, herr⟩
  refine ⟨err, ?_⟩
  unfold Graph.add_edges add_edges_core
  rw [herr]

/-- Witness for C9 at a concrete input: a one-vertex graph rejects an edge
to the unknown name 99 and is left untouched. -/
theorem add_edges_unknown_vertex_preserves_state_witness :
    ∃ err, Graph.add_edges (⟨⟨[⟨1, none⟩], []⟩, []⟩ : Graph Int) [⟨1, 99, 1⟩]
      = .error (err, (⟨⟨[⟨1, none⟩], []⟩, []⟩ : Graph Int)) :=
  add_edges_unknown_vertex_preserves_state _ _ (by decide)

/-- C7 counterexample: add_edges does NOT fail with a DuplicateEdge error
when the ordered pair (1, 2) already has an edge; the second call succeeds
and a second parallel edge is stored, so the claimed at-most-one-edge
invariant is false on the code. -/
theorem add_edges_duplicate_pair_counterexample :
    Graph.add_edges
        (⟨⟨[⟨1, none⟩, ⟨2, none⟩], [⟨0, 1, (3 : Rat)⟩]⟩, []⟩ : Graph Int)
        [⟨1, 2, (3 : Rat)⟩]
      = .ok ⟨⟨[⟨1, none⟩, ⟨2, none⟩], [⟨0, 1, (3 : Rat)⟩, ⟨0, 1, (3 : Rat)⟩]⟩, []⟩ ∧
    edgeCount (⟨[⟨1, none⟩, ⟨2, none⟩], [⟨0, 1, (3 : Rat)⟩, ⟨0, 1, (3 : Rat)⟩]⟩ : IGraph Int) 0 1 = 2 := by
  decide

/-- C7 amended: re-inserting an existing (source, target) pair neither fails
nor overwrites: whenever both endpoint names resolve, add_edges succeeds and
appends one more parallel edge for that ordered pair. -/
theorem add_edges_duplicate_appends_parallel_edge (g : Graph V) (s t : V) (w : Rat)
    (si ti : Nat)
    (hs : get_node_by_name g.graph s = .ok si)
    (ht : get_node_by_name g.graph t = .ok ti) :
    ∃ g2, Graph.add_edges g [⟨s, t, w⟩] = .ok g2 ∧
      edgeCount g2.graph si ti = edgeCount g.graph si ti + 1 := by
  have hres : resolveEdges g.graph [(s, t)] = .ok [(si, ti)] := by
    unfold resolveEdges
    rw [hs, ht]
    rfl
  refine ⟨⟨{ g.graph with es := g.graph.es ++ [⟨si, ti, w⟩] }, g.clusters⟩, ?_, ?_⟩
  · unfold Graph.add_edges add_edges_core
    rw [show (List.map (fun e => (e.start, e.stop)) [(⟨s, t, w⟩ : Edge V)]) = [(s, t)] from rfl,
      hres]
    rfl
  · simp [edgeCount, List.filter_append, List.filter]

/-- Witness for the amended C7 at a concrete input: the pair (1, 2) already
has one edge, and a second insertion brings the count for vertex indices
(0, 1) to two. -/
theorem add_edges_duplicate_appends_parallel_edge_witness :
    ∃ g2, Graph.add_edges
        (⟨⟨[⟨1, none⟩, ⟨2, none⟩], [⟨0, 1, (3 : Rat)⟩]⟩, []⟩ : Graph Int)
        [⟨1, 2, (7 : Rat)⟩] = .ok g2 ∧
      edgeCount g2.graph 0 1
        = edgeCount (⟨[⟨1, none⟩, ⟨2, none⟩], [⟨0, 1, (3 : Rat)⟩]⟩ : IGraph Int) 0 1 + 1 :=
  add_edges_duplicate_appends_parallel_edge _ 1 2 (7 : Rat) 0 1 (by decide) (by decide)

/-- Edge indices of the outgoing edges of vertex index v, in increasing
index order: the model of `subgraph.incident(vertex, mode=igraph.OUT)`. -/
def incident (es : List IEdge) (v : Nat) : List Nat :=
  (es.enum.filter (fun p => decide (p.2.src = v))).map (fun p => p.1)

/-- Current out-degree of vertex index v: the model of vertex.outdegree. -/
def outdeg (es : List IEdge) (v : Nat) : Nat :=
  (es.filter (fun e => decide (e.src = v))).length

/-- Weights read through the cached edge handles, left to right, as
`min(edges, key=lambda a: a[Graph.SIM])` evaluates its key function. A
handle whose stored edge index no longer exists (edges shift down after a
deletion) makes igraph raise; a handle whose index now names a different
edge silently reads the weight of that edge. -/
def handleWeights (es : List IEdge) : List Nat → Except Err (List (Nat × Rat))
  | [] => .ok []
  | h :: r =>
    match es.get? h with
    | none => .error .invalidEdgeHandle
    | some e => (handleWeights es r).map (fun l => (h, e.weight) :: l)

/-- First handle holding the minimum weight, as Python min returns the first
minimal element. -/
def argminFirst (p : Nat × Rat) : List (Nat × Rat) → Nat
  | [] => p.1
  | q :: r => if q.2 < p.2 then argminFirst q r else argminFirst p r

/-- Model of the while-loop inside Graph.subgraph for one vertex. The edge
handle list `handles` was computed once, before the loop, and is never
refreshed (exactly as in the source); deleting the minimum edge is
`es.eraseIdx`, which shifts all later edge indices down by one. The fuel
argument only bounds the iteration count; each productive pass removes one
edge, so fuel `es.length + 1` is never exhausted. -/
def pruneLoop (v k : Nat) (handles : List Nat) : Nat → List IEdge → Except Err (List IEdge)
  | 0, _ => .error .fuelExhausted
  | Nat.succ fuel, es =>
    if outdeg es v ≤ k then .ok es
    else
      match handles with
      | [] => .error .valueError
      | h :: hs =>
        match handleWeights es (h :: hs) with
        | .error e => .error e
        | .ok [] => .error .valueError
        | .ok (p :: ws) => pruneLoop v k handles fuel (es.eraseIdx (argminFirst p ws))

/-- Sequential visit of every vertex of the copied graph, as the for-loop of
Graph.subgraph; each vertex captures its handle list from the current edge
list and then runs the pruning while-loop on it. -/
def subgraphVisit (k : Nat) : List Nat → List IEdge → Except Err (List IEdge)
  | [], es => .ok es
  | v :: vr, es =>
    match pruneLoop v k (incident es v) (es.length + 1) es with
    | .error e => .error e
    | .ok es2 => subgraphVisit k vr es2

/-- Model of Graph.subgraph: copy the graph, then for each vertex repeatedly
delete the minimum-weight outgoing edge (through the cached handle list)
while the out-degree exceeds the bound. Returns the pruned igraph copy. -/
def Graph.subgraph (g : Graph V) (out_degree : Nat) : Except Err (IGraph V) :=
  match subgraphVisit out_degree (List.range g.graph.vs.length) g.graph.es with
  | .error e => .error e
  | .ok es2 => .ok ⟨g.graph.vs, es2⟩

/-- C1 failing input: vertex 0 has three outgoing edges of weights 5, 1, 3
(edge indices 0, 1, 2) and the bound is k = 1. The first loop pass deletes
edge index 1 (weight 1); the cached handles 0, 1, 2 are not refreshed, so on
the second pass handle 2 refers to an edge index that no longer exists and
igraph raises, instead of the top-1 subgraph the docstring and spec promise.
With other edge layouts the stale handles silently delete a wrong edge, so
the retained edges are not the k heaviest either way. -/
theorem subgraph_stale_handles_crash :
    Graph.subgraph
        (⟨⟨[⟨0, none⟩, ⟨1, none⟩, ⟨2, none⟩, ⟨3, none⟩],
           [⟨0, 1, (5 : Rat)⟩, ⟨0, 2, (1 : Rat)⟩, ⟨0, 3, (3 : Rat)⟩]⟩, []⟩ : Graph Int) 1
      = .error .invalidEdgeHandle := by
  decide

/-- Python subscription keys: an int index or a str key. -/
inductive PyKey where
  | pint (i : Int)
  | pstr (s : String)

/-- Model of Python string subscription `s[key]`: an int key indexes the
characters (negative values index from the end, out of range raises
IndexError); any str key raises TypeError, because string indices must be
integers. -/
def strGetItem (s : String) : PyKey → Except Err Char
  | .pint i =>
    let n : Int := if i < 0 then i + s.toList.length else i
    if h : 0 ≤ n ∧ n.toNat < s.toList.length then .ok (s.toList.get ⟨n.toNat, h.2⟩)
    else .error .indexError
  | .pstr _ => .error .typeError

/-- Model of Graph.nodes_in_cluster on its default use_dict=True path. The
source line is `return cluster[cluster]`: it subscripts the cluster label by
itself instead of reading self.clusters[cluster], so for a str label the
call always raises TypeError. The ok branch is unreachable (a str
subscripted by a str never succeeds) and present only to give the function
the return type the docstring intends. -/
def Graph.nodes_in_cluster (g : Graph V) (cluster : String) : Except Err (List V) :=
  match strGetItem cluster (.pstr cluster) with
  | .error e => .error e
  | .ok _ => .ok []

/-- C8: for every graph and every cluster label, nodes_in_cluster raises
TypeError instead of returning the member set (or the empty set for an
unknown label): the code subscripts the label string by itself. -/
theorem nodes_in_cluster_always_type_error (g : Graph Int) (label : String) :
    Graph.nodes_in_cluster g label = .error .typeError := rfl

/-- Stable insertion of an (identifier, weight) pair into a list already
sorted by descending weight: the pair goes in front of the first strictly
smaller weight, so equal weights keep their original relative order. -/
def insertDesc (x : Int × Rat) : List (Int × Rat) → List (Int × Rat)
  | [] => [x]
  | y :: r => if y.2 < x.2 then x :: y :: r else y :: insertDesc x r

/-- Deterministic descending sort by weight, the model of
`row.sort_values(ascending=False)` on a pandas similarity row. -/
def sortDesc (l : List (Int × Rat)) : List (Int × Rat) :=
  l.foldr insertDesc []

/-- Inner loop of Graph.add_similarity for the row of one photo: the whole
sorted row — including the entry for the photo itself — is turned into
edges (photo, other) with the row values as weights and handed to
__add_edges__. Nothing filters out `other == photo`. -/
def addSimRows (ids : List Int) (val : Int → Int → Rat) :
    List Int → IGraph Int → Except (Err × IGraph Int) (IGraph Int)
  | [], g => .ok g
  | photo :: rest, g =>
    let row := sortDesc (ids.map (fun j => (j, val photo j)))
    match add_edges_core g (row.map (fun p => (photo, p.1))) (row.map (fun p => p.2)) with
    | .error pr => .error pr
    | .ok g2 => addSimRows ids val rest g2

/-- Model of Graph.add_similarity: the similarity matrix is given by its
identifier list (`similarity.index`, asserted equal to the columns) and its
entry function. All photos are added as vertices, then every row is added
as a full fan of outgoing edges in descending-weight order. -/
def Graph.add_similarity (g : Graph Int) (ids : List Int) (val : Int → Int → Rat) :
    Except (Err × Graph Int) (Graph Int) :=
  let g1 := add_vertices g.graph ids
  match addSimRows ids val ids g1 with
  | .error pr => .error (pr.1, ⟨pr.2, g.clusters⟩)
  | .ok g2 => .ok ⟨g2, g.clusters⟩

/-- Similarity table used as the C4 failing input: self-similarity 9,
cross-similarity 4 (exact values are irrelevant; only that the self entry
is present in the row). -/
def exSimVal : Int → Int → Rat :=
  fun i j => if i = j then 9 else 4

/-- C4 failing input: a two-photo similarity table. add_similarity inserts
the edges (1, 1) and (2, 2) — self-loops carrying the self-similarity
value — because the row fan includes the identifier of the row itself. The spec
(and the to-do note in graph.py, "Remove self similarity arcs") says such
edges are never inserted. -/
theorem add_similarity_inserts_self_loops :
    Graph.add_similarity (⟨⟨[], []⟩, []⟩ : Graph Int) [1, 2] exSimVal
      = .ok ⟨⟨[⟨1, none⟩, ⟨2, none⟩],
          [⟨0, 0, (9 : Rat)⟩, ⟨0, 1, (4 : Rat)⟩, ⟨1, 1, (9 : Rat)⟩, ⟨1, 0, (4 : Rat)⟩]⟩, []⟩ ∧
    ∃ e ∈ [(⟨0, 0, (9 : Rat)⟩ : IEdge), ⟨0, 1, (4 : Rat)⟩, ⟨1, 1, (9 : Rat)⟩, ⟨1, 0, (4 : Rat)⟩],
      e.src = e.tgt := by
  decide

/-- Key of the first entry holding the minimum value, scanning the row in
insertion order: the model of `min(working[key], key=working[key].get)`. -/
def popMinKey (p : Int × Rat) : List (Int × Rat) → Int
  | [] => p.1
  | q :: r => if q.2 < p.2 then popMinKey q r else popMinKey p r

/-- Removal of the entry with the given key from a row dict, keeping the
order of the remaining entries: the model of `working[key].pop(min_key)`. -/
def dictPopKey (k : Int) : List (Int × Rat) → List (Int × Rat)
  | [] => []
  | q :: r => if q.1 = k then r else q :: dictPopKey k r

/-- Model of the while-loop in Loader.make_graphs that is supposed to shrink
a row to the target neighbour count: while the row is longer than the
threshold, pop the entry with the smallest value. Fuel `row.length + 1`
bounds iteration; each pass removes one entry, so it is never exhausted. -/
def shrinkRow (threshold : Nat) : Nat → List (Int × Rat) → List (Int × Rat)
  | 0, row => row
  | Nat.succ fuel, row =>
    if row.length ≤ threshold then row
    else
      match row with
      | [] => []
      | p :: r => shrinkRow threshold fuel (dictPopKey (popMinKey p r) (p :: r))

/-- Top-k selection straight from a full similarity row: sort the row by
descending value and keep the first k entries. This is how make_graphs
builds its base edge_dict for the largest k. -/
def topKRow (row : List (Int × Rat)) (k : Nat) : List (Int × Rat) :=
  (sortDesc row).take k

/-- Model of one iteration of the `for nearest in all_ks` loop in
Loader.make_graphs: every row of the working copy of edge_dict is shrunk
with the while-loop. The loop compares `len(working[key]) > k` — against
the largest k the edge_dict was built with — and never consults `nearest`,
which is exactly the slip this development documents. -/
def make_graphs_working (edge_dict : List (Int × List (Int × Rat))) (k : Nat) (nearest : Nat) :
    List (Int × List (Int × Rat)) :=
  edge_dict.map (fun p => (p.1, shrinkRow k (p.2.length + 1) p.2))

/-- C2 failing input: ids 1, 2, 3 with zeroed diagonal; the full row of id 1
is [(1, 0), (2, 9), (3, 4)], all_ks = [2, 1], so k = 2 and the base
edge_dict row is the top-2 [(2, 9), (3, 4)]. For nearest = 1 the claim (and
the spec) promise the top-1 row [(2, 9)], but the working row the code
produces still has both entries, because its while-loop bound is k, not
nearest. -/
theorem make_graphs_shrink_uses_largest_k :
    make_graphs_working [(1, topKRow [(1, 0), (2, 9), (3, 4)] 2)] 2 1
        = [(1, [(2, (9 : Rat)), (3, (4 : Rat))])] ∧
    topKRow [(1, 0), (2, 9), (3, 4)] 1 = [(2, (9 : Rat))] ∧
    make_graphs_working [(1, topKRow [(1, 0), (2, 9), (3, 4)] 2)] 2 1
        ≠ [(1, topKRow [(1, 0), (2, 9), (3, 4)] 1)] := by
  decide

/-- Serialized artifacts on disk: the pickled igraph written by
`write_pickle` and the pickled clusters dictionary. Pickling is an external
library assumed faithful, so a blob simply holds the value it serializes. -/
inductive Blob (V : Type) where
  | graphBlob (g : IGraph V)
  | dictBlob (d : List (String × List V))
  deriving DecidableEq

/-- File system model: paths mapped to blobs, latest write first. -/
abbrev FS (V : Type) := List (String × Blob V)

/-- Lookup of a path (first match wins, so the newest write is seen). -/
def fsLookup (fs : FS V) (key : String) : Option (Blob V) :=
  match fs with
  | [] => none
  | (k, b) :: r => if k = key then some b else fsLookup r key

/-- Model of Graph.save: write the pickled igraph at `location` and the
pickled clusters dictionary at `location + "_dict"`. -/
def Graph.save (g : Graph V) (location : String) (fs : FS V) : FS V :=
  (location ++ "_dict", .dictBlob g.clusters) :: (location, .graphBlob g.graph) :: fs

/-- Model of Graph.load: `isfile(location)` failing raises
FileNotFoundError; otherwise the igraph is unpickled, a fresh Graph wrapper
is built around it, and the clusters dictionary is unpickled from
`location + "_dict"` (whose open also raises FileNotFoundError when the
companion file is absent). A blob of the wrong kind fails the unpickling.
No partial graph is ever returned: every failure path is an error. -/
def Graph.load (location : String) (fs : FS V) : Except Err (Graph V) :=
  match fsLookup fs location with
  | none => .error .fileNotFoundError
  | some (.dictBlob _) => .error .unpickleError
  | some (.graphBlob g) =>
    match fsLookup fs (location ++ "_dict") with
    | none => .error .fileNotFoundError
    | some (.graphBlob _) => .error .unpickleError
    | some (.dictBlob d) => .ok ⟨g, d⟩

theorem append_dict_ne (s : String) : ¬ (s ++ "_dict" = s) := by
  intro h
  have hlen := congrArg String.length h
  rw [String.length_append] at hlen
  have hd : ("_dict" : String).length = 5 := rfl
  omega

/-- C3: saving a graph at a location and loading from that location returns
a graph whose vertex list (names and cluster labels), edge list with
weights, and clusters dictionary are all identical to the original, on any
starting file system; and loading from a location with no file fails with
FileNotFoundError rather than producing any graph. -/
theorem save_load_roundtrip (g : Graph V) (loc : String) (fs : FS V)
    (fs2 : FS V) (loc2 : String) (h : fsLookup fs2 loc2 = none) :
    Graph.load loc (Graph.save g loc fs) = .ok g ∧
    Graph.load loc2 fs2 = .error .fileNotFoundError := by
  constructor
  · unfold Graph.save Graph.load
    rw [show fsLookup ((loc ++ "_dict", Blob.dictBlob g.clusters)
        :: (loc, Blob.graphBlob g.graph) :: fs) loc = some (Blob.graphBlob g.graph) by
      unfold fsLookup
      rw [if_neg (append_dict_ne loc)]
      unfold fsLookup
      rw [if_pos rfl]]
    rw [show fsLookup ((loc ++ "_dict", Blob.dictBlob g.clusters)
        :: (loc, Blob.graphBlob g.graph) :: fs) (loc ++ "_dict")
        = some (Blob.dictBlob g.clusters) by
      unfold fsLookup
      rw [if_pos rfl]]
  · unfold Graph.load
    rw [h]

/-- Witness for C3 at a concrete input: a one-vertex graph with one cluster
round-trips through location g on an empty file system, and loading the
absent location x fails with FileNotFoundError. -/
theorem save_load_roundtrip_witness :
    Graph.load "g" (Graph.save (⟨⟨[⟨7, none⟩], []⟩, [("A", [7])]⟩ : Graph Int) "g" [])
      = .ok (⟨⟨[⟨7, none⟩], []⟩, [("A", [7])]⟩ : Graph Int) ∧
    Graph.load "x" ([] : FS Int) = .error .fileNotFoundError :=
  save_load_roundtrip _ "g" [] [] "x" rfl

/-- Dot product of two feature vectors of rational components (extra
components of the longer vector are ignored, as in a zipped product). -/
def dotQ : List Rat → List Rat → Rat
  | [], _ => 0
  | _ :: _, [] => 0
  | x :: xs, y :: ys => x * y + dotQ xs ys

theorem dotQ_comm : ∀ a b : List Rat, dotQ a b = dotQ b a := by
  intro a
  induction a with
  | nil => intro b; cases b <;> rfl
  | cons x xs ih =>
    intro b
    cases b with
    | nil => rfl
    | cons y ys =>
      show x * y + dotQ xs ys = y * x + dotQ ys xs
      rw [mul_comm, ih]

/-- Modelled from the spec: Similarity.cosine_similarity lives in the
distance module, which is not under src/, so the pairwise measure is taken
from the words of the spec — cosine similarity between feature vectors, the
cosine of the angle: the dot product divided by the product of the two
Euclidean norms. -/
noncomputable def cosineSim (a b : List Rat) : ℝ :=
  ((dotQ a b : Rat) : ℝ) / (Real.sqrt ((dotQ a a : Rat) : ℝ) * Real.sqrt ((dotQ b b : Rat) : ℝ))

theorem cosineSim_comm (a b : List Rat) : cosineSim a b = cosineSim b a := by
  unfold cosineSim
  rw [dotQ_comm a b, mul_comm]

/-- Model of the similarity matrix make_graphs computes: cosine similarity
of all photo pairs over one identifier axis used for both rows and columns
(`cosine_similarity(all_photos, all_photos)`, so the asserted
`shape[0] == shape[1]` holds by construction — the matrix is indexed by
`Fin n` on both axes), followed by the assignment that forces the whole
diagonal to 0. -/
noncomputable def make_graphs_similarity (n : Nat) (feature : Fin n → List Rat) :
    Fin n → Fin n → ℝ :=
  fun i j => if i = j then 0 else cosineSim (feature i) (feature j)

/-- C5: for every feature table (any number of photos, any rational feature
vectors) the similarity matrix built in make_graphs is square (both axes are
the same `Fin n`), symmetric, and has every diagonal entry equal to 0
regardless of the cosine value of a vector with itself. -/
theorem similarity_symmetric_zero_diagonal (n : Nat) (feature : Fin n → List Rat)
    (i j : Fin n) :
    make_graphs_similarity n feature i j = make_graphs_similarity n feature j i ∧
    make_graphs_similarity n feature i i = 0 := by
  constructor
  · unfold make_graphs_similarity
    by_cases hij : i = j
    · subst hij; rfl
    · rw [if_neg hij, if_neg (fun h => hij h.symm), cosineSim_comm]
  · unfold make_graphs_similarity
    rw [if_pos rfl]

/-- Value stored under a key in the clusters dictionary (first match). -/
def dictGet (d : List (String × List V)) (k : String) : Option (List V) :=
  match d with
  | [] => none
  | (k2, v) :: r => if k2 = k then some v else dictGet r k

/-- Model of `if not cluster in self.clusters: self.clusters[cluster] =
list()`: a missing key is inserted at the end with an empty list (Python
dicts keep insertion order). -/
def ensureKey (d : List (String × List V)) (k : String) : List (String × List V) :=
  match dictGet d k with
  | some _ => d
  | none => d ++ [(k, [])]

/-- Model of `self.clusters[cluster].append(node)`: the list stored under
the key grows by one element at its end, in place. -/
def dictAppendVal (k : String) (x : V) : List (String × List V) → List (String × List V)
  | [] => []
  | (k2, v) :: r => if k2 = k then (k2, v ++ [x]) :: r else (k2, v) :: dictAppendVal k x r

/-- Replacement of the list stored under a key, keeping the entry position:
the in-place mutation of `self.clusters[cluster]`. -/
def dictSetVal (k : String) (v : List V) : List (String × List V) → List (String × List V)
  | [] => []
  | (k2, w) :: r => if k2 = k then (k2, v) :: r else (k2, w) :: dictSetVal k v r

/-- Model of Python `list.remove(x)`: the first occurrence is removed (the
caller checks membership; on a missing element the source raises). -/
def removeFirst (x : V) : List V → List V
  | [] => []
  | y :: r => if y = x then r else y :: removeFirst x r

/-- Number of occurrences of an element in a member list. -/
def countOcc (x : V) : List V → Nat
  | [] => 0
  | y :: r => (if y = x then 1 else 0) + countOcc x r

/-- Replacement of the cluster attribute of the vertex at an index, the
model of `n[label] = value` after a name lookup. -/
def setIdx : List (IVertex V) → Nat → Option String → List (IVertex V)
  | [], _, _ => []
  | v :: r, 0, c => ⟨v.name, c⟩ :: r
  | v :: r, Nat.succ n, c => v :: setIdx r n c

/-- Model of Graph.add_to_cluster for one node: the clusters dictionary gets
the key if absent and the node is appended to its member list, and then —
only after the dictionary mutation — the vertex is looked up by name and its
cluster attribute set to the label (a failing lookup raises, leaving the
dictionary already modified; the error carries that state). -/
def Graph.add_to_cluster (g : Graph V) (node : V) (cluster : String) :
    Except (Err × Graph V) (Graph V) :=
  let cl1 := dictAppendVal cluster node (ensureKey g.clusters cluster)
  match get_node_by_name g.graph node with
  | .error e => .error (e, ⟨g.graph, cl1⟩)
  | .ok i => .ok ⟨⟨setIdx g.graph.vs i (some cluster), g.graph.es⟩, cl1⟩

/-- Model of Graph.remove_from_cluster for one node: an unknown cluster
label raises ValueError; `self.clusters[cluster].remove(node)` removes the
first occurrence of the node (raising ValueError when it is not a member);
then the dictionary is scanned in insertion order and the vertex cluster
attribute is set to the key of the first member list still containing the
node, or to None when there is none. -/
def Graph.remove_from_cluster (g : Graph V) (node : V) (cluster : String) :
    Except (Err × Graph V) (Graph V) :=
  match dictGet g.clusters cluster with
  | none => .error (.valueError, g)
  | some l =>
    if node ∈ l then
      let cl1 := dictSetVal cluster (removeFirst node l) g.clusters
      let c := (cl1.find? (fun p => decide (node ∈ p.2))).map (fun p => p.1)
      match get_node_by_name g.graph node with
      | .error e => .error (e, ⟨g.graph, cl1⟩)
      | .ok i => .ok ⟨⟨setIdx g.graph.vs i c, g.graph.es⟩, cl1⟩
    else .error (.valueError, g)

/-- C6 counterexample: node 7 is added to cluster A twice, so it is a member
of A; after one remove_from_cluster(7, A) the claim says 7 is no longer in
the cluster index for A (and, having no other membership, that its label is
cleared), but the code removed only one list occurrence: 7 is still a member
of A and its label is still A. -/
theorem remove_from_cluster_duplicate_member_counterexample :
    (Graph.add_to_cluster (⟨⟨[⟨7, none⟩], []⟩, []⟩ : Graph Int) 7 "A" >>= fun g1 =>
     Graph.add_to_cluster g1 7 "A" >>= fun g2 =>
     Graph.remove_from_cluster g2 7 "A")
      = .ok ⟨⟨[⟨7, some "A"⟩], []⟩, [("A", [7])]⟩ ∧
    7 ∈ (dictGet ([("A", [7])] : List (String × List Int)) "A").getD [] := by
  decide

/-- C10 counterexample: node 7 already belongs to cluster A (inserted into
the dictionary first); it is then added to cluster B twice and removed from
B once. It does stay a member of B, but its vertex label field ends up as A
— the first dictionary entry containing it — not B as the claim states. -/
theorem cluster_index_first_label_counterexample :
    (Graph.add_to_cluster (⟨⟨[⟨7, none⟩], []⟩, []⟩ : Graph Int) 7 "A" >>= fun g1 =>
     Graph.add_to_cluster g1 7 "B" >>= fun g2 =>
     Graph.add_to_cluster g2 7 "B" >>= fun g3 =>
     Graph.remove_from_cluster g3 7 "B")
      = .ok ⟨⟨[⟨7, some "A"⟩], []⟩, [("A", [7]), ("B", [7])]⟩ ∧
    ((([⟨7, some "A"⟩] : List (IVertex Int)).get? 0).map (fun v => v.cluster)
      ≠ some (some "B")) := by
  decide

theorem dictGet_mem {d : List (String × List V)} {k : String} {v : List V}
    (h : dictGet d k = some v) : (k, v) ∈ d := by
  induction d with
  | nil => simp [dictGet] at h
  | cons p r ih =>
    obtain ⟨k2, w⟩ := p
    unfold dictGet at h
    by_cases hk : k2 = k
    · rw [if_pos hk] at h
      injection h with h2
      subst hk; subst h2
      exact List.mem_cons_self _ _
    · rw [if_neg hk] at h
      exact List.mem_cons_of_mem _ (ih h)

theorem dictGet_append_of_none {d : List (String × List V)} {k : String}
    (h : dictGet d k = none) (t : List (String × List V)) :
    dictGet (d ++ t) k = dictGet t k := by
  induction d with
  | nil => rfl
  | cons p r ih =>
    obtain ⟨k2, w⟩ := p
    have h2 : (if k2 = k then some w else dictGet r k) = none := h
    show (if k2 = k then some w else dictGet (r ++ t) k) = dictGet t k
    by_cases hk : k2 = k
    · rw [if_pos hk] at h2; cases h2
    · rw [if_neg hk] at h2
      rw [if_neg hk]
      exact ih h2

theorem dictGet_ensureKey_self (d : List (String × List V)) (k : String) :
    dictGet (ensureKey d k) k = some ((dictGet d k).getD []) := by
  unfold ensureKey
  cases h : dictGet d k with
  | some v => simp [h]
  | none =>
    rw [dictGet_append_of_none h]
    simp [dictGet]

theorem dictGet_dictAppendVal_self (k : String) (x : V) (d : List (String × List V)) :
    dictGet (dictAppendVal k x d) k = (dictGet d k).map (fun l => l ++ [x]) := by
  induction d with
  | nil => rfl
  | cons p r ih =>
    obtain ⟨k2, w⟩ := p
    show dictGet (if k2 = k then (k2, w ++ [x]) :: r else (k2, w) :: dictAppendVal k x r) k
      = Option.map (fun l => l ++ [x]) (if k2 = k then some w else dictGet r k)
    by_cases hk : k2 = k
    · rw [if_pos hk, if_pos hk]
      show (if k2 = k then some (w ++ [x]) else dictGet r k)
        = Option.map (fun l => l ++ [x]) (some w)
      rw [if_pos hk]
      rfl
    · rw [if_neg hk, if_neg hk]
      show (if k2 = k then some w else dictGet (dictAppendVal k x r) k)
        = Option.map (fun l => l ++ [x]) (dictGet r k)
      rw [if_neg hk]
      exact ih

theorem dictGet_dictSetVal_self {d : List (String × List V)} {k : String} {l : List V}
    (h : dictGet d k = some l) (v : List V) :
    dictGet (dictSetVal k v d) k = some v := by
  induction d with
  | nil => simp [dictGet] at h
  | cons p r ih =>
    obtain ⟨k2, w⟩ := p
    unfold dictGet at h
    unfold dictSetVal
    by_cases hk : k2 = k
    · rw [if_pos hk]
      unfold dictGet
      rw [if_pos hk]
    · rw [if_neg hk] at h
      rw [if_neg hk]
      unfold dictGet
      rw [if_neg hk]
      exact ih h

theorem mem_ensureKey {d : List (String × List V)} {k : String} {p : String × List V}
    (h : p ∈ ensureKey d k) (hne : ¬ p.1 = k) : p ∈ d := by
  unfold ensureKey at h
  cases hd : dictGet d k with
  | some v => rw [hd] at h; exact h
  | none =>
    rw [hd] at h
    rcases List.mem_append.mp h with h2 | h2
    · exact h2
    · simp at h2
      rw [h2] at hne
      exact absurd rfl hne

theorem mem_dictAppendVal {d : List (String × List V)} {k : String} {x : V}
    {p : String × List V} (h : p ∈ dictAppendVal k x d) (hne : ¬ p.1 = k) : p ∈ d := by
  induction d with
  | nil => exact h
  | cons q r ih =>
    obtain ⟨k2, w⟩ := q
    unfold dictAppendVal at h
    by_cases hk : k2 = k
    · rw [if_pos hk] at h
      rcases List.mem_cons.mp h with h2 | h2
      · rw [h2] at hne; rw [hk] at hne; exact absurd rfl hne
      · exact List.mem_cons_of_mem _ h2
    · rw [if_neg hk] at h
      rcases List.mem_cons.mp h with h2 | h2
      · rw [h2]; exact List.mem_cons_self _ _
      · exact List.mem_cons_of_mem _ (ih h2)

theorem mem_dictSetVal {d : List (String × List V)} {k : String} {v : List V}
    {p : String × List V} (h : p ∈ dictSetVal k v d) (hne : ¬ p.1 = k) : p ∈ d := by
  induction d with
  | nil => exact h
  | cons q r ih =>
    obtain ⟨k2, w⟩ := q
    unfold dictSetVal at h
    by_cases hk : k2 = k
    · rw [if_pos hk] at h
      rcases List.mem_cons.mp h with h2 | h2
      · rw [h2] at hne; rw [hk] at hne; exact absurd rfl hne
      · exact List.mem_cons_of_mem _ h2
    · rw [if_neg hk] at h
      rcases List.mem_cons.mp h with h2 | h2
      · rw [h2]; exact List.mem_cons_self _ _
      · exact List.mem_cons_of_mem _ (ih h2)

theorem mem_dictSetVal_of_nodup {d : List (String × List V)} {k : String} {v : List V}
    {p : String × List V} (hnd : (d.map Prod.fst).Nodup) (h : p ∈ dictSetVal k v d) :
    p = (k, v) ∨ (p ∈ d ∧ ¬ p.1 = k) := by
  induction d with
  | nil => exact absurd h (List.not_mem_nil p)
  | cons q r ih =>
    obtain ⟨k2, w⟩ := q
    rw [List.map_cons, List.nodup_cons] at hnd
    unfold dictSetVal at h
    by_cases hk : k2 = k
    · rw [if_pos hk] at h
      rcases List.mem_cons.mp h with h2 | h2
      · left; rw [h2, hk]
      · right
        refine ⟨List.mem_cons_of_mem _ h2, ?_⟩
        intro hpk
        apply hnd.1
        rw [hk, ← hpk]
        exact List.mem_map.mpr ⟨p, h2, rfl⟩
    · rw [if_neg hk] at h
      rcases List.mem_cons.mp h with h2 | h2
      · right
        refine ⟨by rw [h2]; exact List.mem_cons_self _ _, ?_⟩
        rw [h2]
        exact hk
      · rcases ih hnd.2 h2 with h3 | h3
        · left; exact h3
        · right; exact ⟨List.mem_cons_of_mem _ h3.1, h3.2⟩

theorem find_first_containing {d : List (String × List V)} {k : String} {v : List V}
    {node : V} (hget : dictGet d k = some v) (hmem : node ∈ v)
    (hother : ∀ p ∈ d, ¬ p.1 = k → node ∉ p.2) :
    d.find? (fun p => decide (node ∈ p.2)) = some (k, v) := by
  induction d with
  | nil => simp [dictGet] at hget
  | cons q r ih =>
    obtain ⟨k2, w⟩ := q
    unfold dictGet at hget
    by_cases hk : k2 = k
    · rw [if_pos hk] at hget
      injection hget with h2
      subst h2; subst hk
      rw [List.find?_cons_of_pos _ (by simpa using hmem)]
    · rw [if_neg hk] at hget
      have hnot : node ∉ w := hother (k2, w) (List.mem_cons_self _ _) hk
      rw [List.find?_cons_of_neg _ (by simpa using hnot)]
      exact ih hget (fun p hp hne => hother p (List.mem_cons_of_mem _ hp) hne)

theorem countOcc_append (x : V) (a b : List V) :
    countOcc x (a ++ b) = countOcc x a + countOcc x b := by
  induction a with
  | nil => simp [countOcc]
  | cons y r ih =>
    show (if y = x then 1 else 0) + countOcc x (r ++ b)
      = (if y = x then 1 else 0) + countOcc x r + countOcc x b
    rw [ih, Nat.add_assoc]

theorem countOcc_zero_of_not_mem {x : V} {l : List V} (h : x ∉ l) : countOcc x l = 0 := by
  induction l with
  | nil => rfl
  | cons y r ih =>
    unfold countOcc
    rw [if_neg (fun hy => h (by rw [← hy]; exact List.mem_cons_self _ _))]
    simp [ih (fun hr => h (List.mem_cons_of_mem _ hr))]

theorem not_mem_of_countOcc_zero {x : V} {l : List V} (h : countOcc x l = 0) : x ∉ l := by
  induction l with
  | nil => exact List.not_mem_nil x
  | cons y r ih =>
    unfold countOcc at h
    by_cases hy : y = x
    · rw [if_pos hy] at h; omega
    · rw [if_neg hy] at h
      intro hmem
      rcases List.mem_cons.mp hmem with h2 | h2
      · exact hy h2.symm
      · exact ih (by omega) h2

theorem mem_of_countOcc_pos {x : V} {l : List V} (h : 0 < countOcc x l) : x ∈ l := by
  by_contra hnot
  rw [countOcc_zero_of_not_mem hnot] at h
  omega

theorem not_mem_removeFirst_of_countOcc_one {x : V} {l : List V}
    (h : countOcc x l = 1) : x ∉ removeFirst x l := by
  induction l with
  | nil => exact List.not_mem_nil x
  | cons y r ih =>
    unfold countOcc at h
    unfold removeFirst
    by_cases hy : y = x
    · rw [if_pos hy] at h
      rw [if_pos hy]
      exact not_mem_of_countOcc_zero (by omega)
    · rw [if_neg hy] at h
      rw [if_neg hy]
      intro hmem
      rcases List.mem_cons.mp hmem with h2 | h2
      · exact hy h2.symm
      · exact ih (by omega) h2

theorem removeFirst_append_of_not_mem {x : V} {pre : List V} (h : x ∉ pre)
    (post : List V) : removeFirst x (pre ++ x :: post) = pre ++ post := by
  induction pre with
  | nil =>
    show removeFirst x (x :: post) = post
    unfold removeFirst
    rw [if_pos rfl]
  | cons y r ih =>
    rw [List.cons_append, List.cons_append]
    unfold removeFirst
    rw [if_neg (fun hy => h (by rw [← hy]; exact List.mem_cons_self _ _))]
    rw [ih (fun hr => h (List.mem_cons_of_mem _ hr))]

theorem findNameIdx_lt_length {name : V} {l : List (IVertex V)} {i : Nat}
    (h : findNameIdx name l = some i) : i < l.length := by
  induction l generalizing i with
  | nil => cases h
  | cons v r ih =>
    have h2 : (if v.name = name then some 0
        else (findNameIdx name r).map (· + 1)) = some i := h
    by_cases hv : v.name = name
    · rw [if_pos hv] at h2
      injection h2 with h3
      rw [← h3]
      exact Nat.succ_pos _
    · rw [if_neg hv] at h2
      cases hr : findNameIdx name r with
      | none => rw [hr] at h2; cases h2
      | some j =>
        rw [hr] at h2
        injection h2 with h3
        have := ih hr
        rw [← h3]
        exact Nat.succ_lt_succ this

theorem get_node_by_name_lt {g : IGraph V} {name : V} {i : Nat}
    (h : get_node_by_name g name = .ok i) : i < g.vs.length := by
  unfold get_node_by_name at h
  by_cases hc : (g.vs.filter (fun v => v.name = name)).length = 1
  · rw [if_pos hc] at h
    cases hf : findNameIdx name g.vs with
    | none => rw [hf] at h; cases h
    | some j =>
      rw [hf] at h
      injection h with h2
      rw [← h2]
      exact findNameIdx_lt_length hf
  · rw [if_neg hc] at h; cases h

theorem setIdx_get (l : List (IVertex V)) (i : Nat) (c : Option String) :
    (setIdx l i c).get? i = (l.get? i).map (fun v => ⟨v.name, c⟩) := by
  induction l generalizing i with
  | nil => cases i <;> rfl
  | cons v r ih =>
    cases i with
    | zero => rfl
    | succ n =>
      show (setIdx r n c).get? n = (r.get? n).map (fun v => ⟨v.name, c⟩)
      exact ih n

theorem setIdx_names (l : List (IVertex V)) (i : Nat) (c : Option String) :
    ∀ n : V, findNameIdx n (setIdx l i c) = findNameIdx n l := by
  induction l generalizing i with
  | nil => intro n; cases i <;> rfl
  | cons v r ih =>
    intro n
    cases i with
    | zero => rfl
    | succ m =>
      show (if v.name = n then some 0 else (findNameIdx n (setIdx r m c)).map (· + 1))
        = (if v.name = n then some 0 else (findNameIdx n r).map (· + 1))
      rw [ih m n]

theorem setIdx_filter_names (l : List (IVertex V)) (i : Nat) (c : Option String) (n : V) :
    ((setIdx l i c).filter (fun v => v.name = n)).length
      = (l.filter (fun v => v.name = n)).length := by
  induction l generalizing i with
  | nil => cases i <;> rfl
  | cons v r ih =>
    cases i with
    | zero =>
      show (((⟨v.name, c⟩ : IVertex V) :: r).filter (fun v => v.name = n)).length
        = ((v :: r).filter (fun v => v.name = n)).length
      rw [List.filter_cons, List.filter_cons]
      by_cases hv : v.name = n
      · simp [hv]
      · simp [hv]
    | succ m =>
      show ((v :: setIdx r m c).filter (fun v => v.name = n)).length
        = ((v :: r).filter (fun v => v.name = n)).length
      rw [List.filter_cons, List.filter_cons]
      by_cases hv : v.name = n
      · simp [hv, ih]
      · simp [hv, ih]

theorem get_node_by_name_setIdx (vs : List (IVertex V)) (es es2 : List IEdge)
    (i : Nat) (c : Option String) (x : V) :
    get_node_by_name ⟨setIdx vs i c, es⟩ x = get_node_by_name ⟨vs, es2⟩ x := by
  unfold get_node_by_name
  rw [show (⟨setIdx vs i c, es⟩ : IGraph V).vs = setIdx vs i c from rfl,
    show (⟨vs, es2⟩ : IGraph V).vs = vs from rfl,
    setIdx_filter_names, setIdx_names]

theorem setIdx_length (l : List (IVertex V)) (i : Nat) (c : Option String) :
    (setIdx l i c).length = l.length := by
  induction l generalizing i with
  | nil => cases i <;> rfl
  | cons v r ih =>
    cases i with
    | zero => rfl
    | succ m =>
      show (setIdx r m c).length + 1 = r.length + 1
      rw [ih m]

theorem exists_get_of_lt {l : List (IVertex V)} {i : Nat} (h : i < l.length) :
    ∃ v, l.get? i = some v := by
  induction l generalizing i with
  | nil => cases h
  | cons v r ih =>
    cases i with
    | zero => exact ⟨v, rfl⟩
    | succ m => exact ih (Nat.lt_of_succ_lt_succ h)

/-- C6 amended: removing a node that occurs exactly once in the member list
of the member list of cluster L (and in the list of no other cluster) removes it from the index for
L and clears the vertex label to None, the dictionary and the label field
being updated in the same call; in general the code removes one occurrence
of the node from the list of L and then sets the label to the key of the first
dictionary entry still containing the node (insertion order, not the
lexicographically smallest), or to None when there is none. -/
theorem remove_from_cluster_unique_member (g : Graph V) (node : V) (label : String)
    (l : List V) (i : Nat)
    (hl : dictGet g.clusters label = some l)
    (hcount : countOcc node l = 1)
    (hres : get_node_by_name g.graph node = .ok i)
    (hkeys : (g.clusters.map Prod.fst).Nodup)
    (hother : ∀ p ∈ g.clusters, ¬ p.1 = label → node ∉ p.2) :
    ∃ g2, Graph.remove_from_cluster g node label = .ok g2 ∧
      node ∉ (dictGet g2.clusters label).getD [] ∧
      (g2.graph.vs.get? i).map (fun v => v.cluster) = some none := by
  have hmem : node ∈ l := mem_of_countOcc_pos (by omega)
  have hrem : node ∉ removeFirst node l := not_mem_removeFirst_of_countOcc_one hcount
  have hfind : (dictSetVal label (removeFirst node l) g.clusters).find?
      (fun p => decide (node ∈ p.2)) = none := by
    rw [List.find?_eq_none]
    intro p hp
    simp only [decide_eq_true_eq]
    rcases mem_dictSetVal_of_nodup hkeys hp with h2 | h2
    · rw [h2]; exact hrem
    · exact hother p h2.1 h2.2
  refine ⟨⟨⟨setIdx g.graph.vs i none, g.graph.es⟩,
      dictSetVal label (removeFirst node l) g.clusters⟩, ?_, ?_, ?_⟩
  · unfold Graph.remove_from_cluster
    rw [hl]
    show (if node ∈ l then
        let cl1 := dictSetVal label (removeFirst node l) g.clusters
        let c := (cl1.find? (fun p => decide (node ∈ p.2))).map (fun p => p.1)
        (match get_node_by_name g.graph node with
          | Except.error e => Except.error (e, (⟨g.graph, cl1⟩ : Graph V))
          | Except.ok i =>
            Except.ok (⟨⟨setIdx g.graph.vs i c, g.graph.es⟩, cl1⟩ : Graph V))
      else Except.error (Err.valueError, g))
      = Except.ok (⟨⟨setIdx g.graph.vs i none, g.graph.es⟩,
          dictSetVal label (removeFirst node l) g.clusters⟩ : Graph V)
    rw [if_pos hmem]
    simp only [hfind, hres]
    rfl
  · rw [show (⟨⟨setIdx g.graph.vs i none, g.graph.es⟩,
        dictSetVal label (removeFirst node l) g.clusters⟩ : Graph V).clusters
      = dictSetVal label (removeFirst node l) g.clusters from rfl]
    rw [dictGet_dictSetVal_self hl]
    exact hrem
  · rw [show (⟨⟨setIdx g.graph.vs i none, g.graph.es⟩,
        dictSetVal label (removeFirst node l) g.clusters⟩ : Graph V).graph.vs
      = setIdx g.graph.vs i none from rfl]
    rw [setIdx_get]
    rcases exists_get_of_lt (get_node_by_name_lt hres) with ⟨v, hv⟩
    rw [hv]
    rfl

/-- Witness for the amended C6 at a concrete input: node 7 occurs once in
cluster A and nowhere else; after the removal it is no longer a member of A
and its label field is None. -/
theorem remove_from_cluster_unique_member_witness :
    ∃ g2, Graph.remove_from_cluster
        (⟨⟨[⟨7, some "A"⟩], []⟩, [("A", [7]), ("B", [])]⟩ : Graph Int) 7 "A" = .ok g2 ∧
      7 ∉ (dictGet g2.clusters "A").getD [] ∧
      (g2.graph.vs.get? 0).map (fun v => v.cluster) = some none :=
  remove_from_cluster_unique_member _ 7 "A" [7] 0 (by decide) (by decide) (by decide)
    (by decide) (by decide)

/-- C10 amended: the cluster index stores memberships as lists that admit
duplicates — adding a node to L twice records it twice, and one removal
removes a single occurrence, so the node stays a member of L — but the
vertex label field afterwards is the key of the FIRST dictionary entry (in
insertion order) whose member list contains the node; it equals L whenever
the node belonged to no cluster beforehand, as proved here, and not in
general (see the counterexample). -/
theorem cluster_duplicate_add_remove (g : Graph V) (node : V) (label : String) (i : Nat)
    (hres : get_node_by_name g.graph node = .ok i)
    (hfresh : ∀ p ∈ g.clusters, node ∉ p.2) :
    ∃ g3, (Graph.add_to_cluster g node label >>= fun g1 =>
           Graph.add_to_cluster g1 node label >>= fun g2 =>
           Graph.remove_from_cluster g2 node label) = .ok g3 ∧
      countOcc node ((dictGet g3.clusters label).getD []) = 1 ∧
      (g3.graph.vs.get? i).map (fun v => v.cluster) = some (some label) := by
  have hold : node ∉ (dictGet g.clusters label).getD [] := by
    cases hgl : dictGet g.clusters label with
    | none => exact List.not_mem_nil node
    | some v => exact hfresh (label, v) (dictGet_mem hgl)
  have hget1 : dictGet (dictAppendVal label node (ensureKey g.clusters label)) label
      = some ((dictGet g.clusters label).getD [] ++ [node]) := by
    rw [dictGet_dictAppendVal_self, dictGet_ensureKey_self]
    rfl
  have step1 : Graph.add_to_cluster g node label
      = .ok ⟨⟨setIdx g.graph.vs i (some label), g.graph.es⟩,
          dictAppendVal label node (ensureKey g.clusters label)⟩ := by
    unfold Graph.add_to_cluster
    simp only [hres]
  have hres1 : get_node_by_name
      (⟨setIdx g.graph.vs i (some label), g.graph.es⟩ : IGraph V) node = .ok i := by
    rw [get_node_by_name_setIdx g.graph.vs g.graph.es g.graph.es i (some label) node]
    exact hres
  have hens_eq : ∀ (d : List (String × List V)) (k : String) (v : List V),
      dictGet d k = some v → ensureKey d k = d := by
    intro d k v h
    unfold ensureKey
    rw [h]
  have hens2 : ensureKey (dictAppendVal label node (ensureKey g.clusters label)) label
      = dictAppendVal label node (ensureKey g.clusters label) :=
    hens_eq _ _ _ hget1
  have hget2 : dictGet (dictAppendVal label node
        (ensureKey (dictAppendVal label node (ensureKey g.clusters label)) label)) label
      = some (((dictGet g.clusters label).getD [] ++ [node]) ++ [node]) := by
    rw [hens2, dictGet_dictAppendVal_self, hget1]
    rfl
  have step2 : Graph.add_to_cluster
      (⟨⟨setIdx g.graph.vs i (some label), g.graph.es⟩,
        dictAppendVal label node (ensureKey g.clusters label)⟩ : Graph V) node label
      = .ok ⟨⟨setIdx (setIdx g.graph.vs i (some label)) i (some label), g.graph.es⟩,
          dictAppendVal label node
            (ensureKey (dictAppendVal label node (ensureKey g.clusters label)) label)⟩ := by
    unfold Graph.add_to_cluster
    simp only [hres1]
  have hres2 : get_node_by_name
      (⟨setIdx (setIdx g.graph.vs i (some label)) i (some label), g.graph.es⟩ : IGraph V)
      node = .ok i := by
    rw [get_node_by_name_setIdx (setIdx g.graph.vs i (some label)) g.graph.es g.graph.es
      i (some label) node]
    exact hres1
  have hmem2 : node ∈ ((dictGet g.clusters label).getD [] ++ [node]) ++ [node] := by
    simp
  have hrf : removeFirst node (((dictGet g.clusters label).getD [] ++ [node]) ++ [node])
      = (dictGet g.clusters label).getD [] ++ [node] := by
    rw [List.append_assoc]
    exact removeFirst_append_of_not_mem hold [node]
  have hother3 : ∀ p ∈ dictSetVal label ((dictGet g.clusters label).getD [] ++ [node])
      (dictAppendVal label node
        (ensureKey (dictAppendVal label node (ensureKey g.clusters label)) label)),
      ¬ p.1 = label → node ∉ p.2 := by
    intro p hp hne
    have hp2 := mem_dictSetVal hp hne
    have hp3 := mem_ensureKey (mem_dictAppendVal hp2 hne) hne
    have hp4 := mem_ensureKey (mem_dictAppendVal hp3 hne) hne
    exact hfresh p hp4
  have hget3 : dictGet (dictSetVal label ((dictGet g.clusters label).getD [] ++ [node])
      (dictAppendVal label node
        (ensureKey (dictAppendVal label node (ensureKey g.clusters label)) label))) label
      = some ((dictGet g.clusters label).getD [] ++ [node]) :=
    dictGet_dictSetVal_self hget2 _
  have hfind : (dictSetVal label ((dictGet g.clusters label).getD [] ++ [node])
      (dictAppendVal label node
        (ensureKey (dictAppendVal label node (ensureKey g.clusters label)) label))).find?
      (fun p => decide (node ∈ p.2))
      = some (label, (dictGet g.clusters label).getD [] ++ [node]) :=
    find_first_containing hget3 (by simp) hother3
  have step3 : Graph.remove_from_cluster
      (⟨⟨setIdx (setIdx g.graph.vs i (some label)) i (some label), g.graph.es⟩,
        dictAppendVal label node
          (ensureKey (dictAppendVal label node (ensureKey g.clusters label)) label)⟩ : Graph V)
      node label
      = .ok ⟨⟨setIdx (setIdx (setIdx g.graph.vs i (some label)) i (some label)) i
            (some label), g.graph.es⟩,
          dictSetVal label ((dictGet g.clusters label).getD [] ++ [node])
            (dictAppendVal label node
              (ensureKey (dictAppendVal label node (ensureKey g.clusters label)) label))⟩ := by
    unfold Graph.remove_from_cluster
    rw [show (⟨⟨setIdx (setIdx g.graph.vs i (some label)) i (some label), g.graph.es⟩,
        dictAppendVal label node
          (ensureKey (dictAppendVal label node (ensureKey g.clusters label)) label)⟩
        : Graph V).clusters
      = dictAppendVal label node
          (ensureKey (dictAppendVal label node (ensureKey g.clusters label)) label)
      from rfl, hget2]
    simp only [hmem2, if_true, hrf, hfind, hres2]
    rfl
  refine ⟨⟨⟨setIdx (setIdx (setIdx g.graph.vs i (some label)) i (some label)) i
        (some label), g.graph.es⟩,
      dictSetVal label ((dictGet g.clusters label).getD [] ++ [node])
        (dictAppendVal label node
          (ensureKey (dictAppendVal label node (ensureKey g.clusters label)) label))⟩,
    ?_, ?_, ?_⟩
  · simp only [step1, except_bind_ok, step2, step3]
  · rw [show (⟨⟨setIdx (setIdx (setIdx g.graph.vs i (some label)) i (some label)) i
            (some label), g.graph.es⟩,
          dictSetVal label ((dictGet g.clusters label).getD [] ++ [node])
            (dictAppendVal label node
              (ensureKey (dictAppendVal label node (ensureKey g.clusters label)) label))⟩
        : Graph V).clusters
      = dictSetVal label ((dictGet g.clusters label).getD [] ++ [node])
          (dictAppendVal label node
            (ensureKey (dictAppendVal label node (ensureKey g.clusters label)) label))
      from rfl, hget3]
    show countOcc node ((dictGet g.clusters label).getD [] ++ [node]) = 1
    rw [countOcc_append, countOcc_zero_of_not_mem hold]
    simp [countOcc]
  · show ((setIdx (setIdx (setIdx g.graph.vs i (some label)) i (some label)) i
        (some label)).get? i).map (fun v => v.cluster) = some (some label)
    rw [setIdx_get]
    have hlt : i < (setIdx (setIdx g.graph.vs i (some label)) i (some label)).length := by
      rw [setIdx_length, setIdx_length]
      exact get_node_by_name_lt hres
    rcases exists_get_of_lt hlt with ⟨v, hv⟩
    rw [hv]
    rfl

/-- Witness for the amended C10 at a concrete input: a fresh node 7 is added
to cluster A twice; one removal leaves it a member of A exactly once and its
label field is still A. -/
theorem cluster_duplicate_add_remove_witness :
    ∃ g3, (Graph.add_to_cluster (⟨⟨[⟨7, none⟩], []⟩, []⟩ : Graph Int) 7 "A" >>= fun g1 =>
           Graph.add_to_cluster g1 7 "A" >>= fun g2 =>
           Graph.remove_from_cluster g2 7 "A") = .ok g3 ∧
      countOcc 7 ((dictGet g3.clusters "A").getD []) = 1 ∧
      (g3.graph.vs.get? 0).map (fun v => v.cluster) = some (some "A") :=
  cluster_duplicate_add_remove _ 7 "A" 0 (by decide) (by decide)

end CSE515
